import Mathlib

/-!
Verification of the SAGE estimation engine (`src/importance/sage_sklearn.py`).

The Python source is shallowly embedded over exact rationals:

* per-example predictions and losses are rationals (the source works
  componentwise on arrays; we verify the scalar/componentwise behaviour);
* the stochastic imputation draws, the per-example random permutations and
  the random coalition masks are explicit parameters of the embedding, so
  every definition is a deterministic function of them, exactly as the
  source is a deterministic function of its random draws;
* `importance.utils.ImportanceTracker` and
  `importance.utils.sample_subset_feature` are not part of the provided
  sources; they are modelled from the spec (see their doc comments);
* the convergence comparison `(conf / total) < threshold`, where
  `conf = variance ** 0.5` is a real square root, is encoded as an
  executable rational predicate `convRatioLt` that is proved to agree with
  the real-number comparison when `total > 0` (`convRatioLt_correct`); for
  `total = 0` it follows the host float convention that `x / 0` is an
  infinity or a nan, both of which compare `False` against the threshold.
-/

variable {α : Type} {d : ℕ}

/-- Modelled from the spec: `importance.utils.ImportanceTracker` (its source
is not under `src/`).  Per-feature running observation count, running mean
and Welford-style sum of squared deviations over a stream of score rows. -/
structure Tracker (d : ℕ) where
  N : ℕ
  mean : Fin d → ℚ
  M2 : Fin d → ℚ

/-- Modelled from the spec: a fresh tracker with no observations. -/
def Tracker.init : Tracker d := ⟨0, fun _ => 0, fun _ => 0⟩

/-- Modelled from the spec: fold one observation row into the tracker with
the numerically stable Welford update. -/
def Tracker.obs (t : Tracker d) (r : Fin d → ℚ) : Tracker d :=
  ⟨t.N + 1,
   fun f => t.mean f + (r f - t.mean f) / ((t.N : ℚ) + 1),
   fun f => t.M2 f +
     (r f - t.mean f) * (r f - (t.mean f + (r f - t.mean f) / ((t.N : ℚ) + 1)))⟩

/-- Modelled from the spec: `ImportanceTracker.update` ingests a batch of
per-example score rows, folding them in one at a time. -/
def Tracker.update (t : Tracker d) (rows : List (Fin d → ℚ)) : Tracker d :=
  rows.foldl Tracker.obs t

/-- Modelled from the spec: `tracker.scores`, the current running mean. -/
def Tracker.scores (t : Tracker d) : Fin d → ℚ := t.mean

/-- Modelled from the spec: `tracker.var`, the variance of the mean
estimator (sample variance divided by the effective sample count). -/
def Tracker.var (t : Tracker d) : Fin d → ℚ :=
  fun f => t.M2 f / ((t.N : ℚ) * (t.N : ℚ))

/-- Context of one minibatch evaluation: `n` examples, replicate count `m`,
features `x`, labels `y`, the imputation module's random draws (indexed by
the impute-call counter and the row of the `m`-fold replicated batch), the
model `predict` and the unreduced per-example loss `lossFn`. -/
structure EvalCtx (d : ℕ) where
  n : ℕ
  m : ℕ
  x : ℕ → Fin d → ℚ
  y : ℕ → ℚ
  draws : ℕ → ℕ → Fin d → ℚ
  predict : (Fin d → ℚ) → ℚ
  lossFn : ℚ → ℚ → ℚ

/-- Embeds `imputation_module.impute(x, S)` on the `m`-fold replicated
batch: row `ρ` of the replicated batch carries example `ρ % n`
(`x.repeat(m_samples, 1)`); entries with mask 1 keep the example's value,
entries with mask 0 are filled by the imputation draw of call `c`. -/
def imputedRow (E : EvalCtx d) (c : ℕ) (S : ℕ → Fin d → Bool) (ρ : ℕ) :
    Fin d → ℚ :=
  fun f => if S ρ f then E.x (ρ % E.n) f else E.draws c ρ f

/-- Embeds `model.predict(imputation_module.impute(x, S))` rowwise on the
replicated batch. -/
def predRow (E : EvalCtx d) (c : ℕ) (S : ℕ → Fin d → Bool) (ρ : ℕ) : ℚ :=
  E.predict (imputedRow E c S ρ)

/-- Embeds `np.mean(y_hat.reshape((m_samples, -1, ...)), axis=0)`: the flat
replicated predictions are reshaped into `(m, n)` — entry `(r, j)` is flat
row `r * n + j` — and averaged over the replicate axis. -/
def avgPred (E : EvalCtx d) (c : ℕ) (S : ℕ → Fin d → Bool) (j : ℕ) : ℚ :=
  (∑ r ∈ Finset.range E.m, predRow E c S (r * E.n + j)) / (E.m : ℚ)

/-- Embeds `loss_fn(y_hat, y)` after replicate averaging: the per-example
loss of the averaged prediction against the original label. -/
def batchLoss (E : EvalCtx d) (c : ℕ) (S : ℕ → Fin d → Bool) (j : ℕ) : ℚ :=
  E.lossFn (avgPred E c S j) (E.y j)

/-- The alternative the spec rules out, written from the spec's words: the
per-replicate losses averaged over replicates (instead of the loss of the
averaged prediction).  Used only to show the source does not compute it. -/
def perReplicateAvgLoss (E : EvalCtx d) (c : ℕ) (S : ℕ → Fin d → Bool)
    (j : ℕ) : ℚ :=
  (∑ r ∈ Finset.range E.m, E.lossFn (predRow E c S (r * E.n + j)) (E.y j)) /
    (E.m : ℚ)

/-- Executable encoding of the convergence comparison
`(variance ** 0.5) / total < threshold` over the rationals, for a
nonnegative variance `v`.  For `total > 0` it is proved to agree with the
real-number comparison (`convRatioLt_correct`); for `total = 0` it encodes
the host float convention that the ratio is an infinity or a nan, which
compare `False`. -/
def convRatioLt (v t thr : ℚ) : Bool :=
  if 0 < t then decide (0 < thr * t) && decide (v < (thr * t) ^ 2)
  else if t < 0 then decide (thr * t < 0) || decide ((thr * t) ^ 2 < v)
  else false

/-- Embeds `np.max(tracker.var)` over the `d` features (`d = 0` never
occurs in the source; the match keeps the definition total). -/
def maxVar (t : Tracker d) : ℚ :=
  match List.finRange d with
  | [] => 0
  | f :: fs => fs.foldl (fun a g => max a (t.var g)) (t.var f)

theorem convRatioLt_correct (v t thr : ℚ) (ht : 0 < t) :
    convRatioLt v t thr = true ↔ Real.sqrt (v : ℝ) / (t : ℝ) < (thr : ℝ) := by
  have ht' : (0 : ℝ) < (t : ℝ) := by exact_mod_cast ht
  rw [div_lt_iff₀ ht']
  constructor
  · intro h
    simp only [convRatioLt, if_pos ht, Bool.and_eq_true, decide_eq_true_eq] at h
    obtain ⟨h1, h2⟩ := h
    have h1' : (0 : ℝ) < (thr : ℝ) * (t : ℝ) := by exact_mod_cast h1
    have h2' : ((v : ℝ)) < ((thr : ℝ) * (t : ℝ)) ^ 2 := by exact_mod_cast h2
    have := (Real.sqrt_lt' h1').mpr h2'
    linarith [this]
  · intro h
    have hnn : (0 : ℝ) ≤ Real.sqrt (v : ℝ) := Real.sqrt_nonneg _
    have h1' : (0 : ℝ) < (thr : ℝ) * (t : ℝ) := lt_of_le_of_lt hnn h
    have h2' : ((v : ℝ)) < ((thr : ℝ) * (t : ℝ)) ^ 2 := by
      have := (Real.sqrt_lt' h1').mp h
      exact this
    simp only [convRatioLt, if_pos ht, Bool.and_eq_true, decide_eq_true_eq]
    constructor
    · exact_mod_cast h1'
    · exact_mod_cast h2'

/-- Context of one batch of the permutation estimator: the evaluation
context plus one random permutation of the feature indices per example
(`torch.randperm(input_size)` for each row); row `ρ` of the replicated
permutation matrix carries example `ρ % n`'s permutation. -/
structure PermCtx (d : ℕ) where
  E : EvalCtx d
  perm : ℕ → Equiv.Perm (Fin d)

/-- State carried through the reveal loop of `permutation_sampling`: the
replicated mask `S`, the per-example `prev_loss`, and the per-example
per-feature `scores` matrix being filled in. -/
structure RevealState (d : ℕ) where
  S : ℕ → Fin d → Bool
  prev : ℕ → ℚ
  scores : ℕ → Fin d → ℚ

/-- Embeds the body of `for i in range(input_size)` in
`permutation_sampling`: set `S` to 1 at each replicated row's `i`-th
permuted feature index, recompute the imputed prediction and loss (impute
call `i + 1`), write `prev_loss - loss` into the revealed feature's score
column, and replace `prev_loss` by the new loss. -/
def revealStep (P : PermCtx d) (st : RevealState d) (i : Fin d) :
    RevealState d :=
  let S2 : ℕ → Fin d → Bool :=
    fun ρ f => if f = P.perm (ρ % P.E.n) i then true else st.S ρ f
  let ls : ℕ → ℚ := batchLoss P.E (i.val + 1) S2
  ⟨S2, ls,
   fun j f => if f = P.perm (j % P.E.n) i then st.prev j - ls j
              else st.scores j f⟩

/-- Embeds the batch setup of `permutation_sampling`: `S` starts all-zero,
the baseline `prev_loss` is the loss with every feature held out (impute
call `0`), and the score matrix starts at zero. -/
def initState (P : PermCtx d) : RevealState d :=
  ⟨fun _ _ => false, batchLoss P.E 0 (fun _ _ => false), fun _ _ => 0⟩

/-- The reveal loop of `permutation_sampling` run for the first `k` of the
`d` reveal positions; `runRevealN P d` is the loop `for i in
range(input_size)` in full. -/
def runRevealN (P : PermCtx d) : ℕ → RevealState d
  | 0 => initState P
  | k + 1 =>
    if h : k < d then revealStep P (runRevealN P k) ⟨k, h⟩
    else runRevealN P k

/-- Embeds one iteration of the outer batch loop of
`permutation_sampling`: run all `d` reveal positions, then
`tracker.update(scores)` with the `n × d` score matrix. -/
def permProcessBatch (t : Tracker d) (P : PermCtx d) : Tracker d :=
  Tracker.update t
    ((List.range P.E.n).map fun j => fun f => (runRevealN P d).scores j f)

/-- Embeds the outer batch loop of `permutation_sampling` over the stream
of sampled batches: process each batch, and when convergence detection is
on, break the first time `(np.max(tracker.var) ** 0.5) / total` is below
the threshold.  Returns the final tracker (whose `scores` the source
returns) together with the number of batches processed. -/
def permRun (detect : Bool) (thr total : ℚ) :
    Tracker d → List (PermCtx d) → Tracker d × ℕ
  | t, [] => (t, 0)
  | t, P :: rest =>
    let t2 := permProcessBatch t P
    if detect && convRatioLt (maxVar t2) total thr then (t2, 1)
    else
      let r := permRun detect thr total t2 rest
      (r.1, r.2 + 1)

/-- Embeds the `m_samples` clamp shared by both estimators: under
`ReferenceImputation`, an `m_samples != 1` is silently replaced by 1. -/
def clamp_m (isRef : Bool) (m : ℕ) : ℕ :=
  if isRef && decide (m ≠ 1) then 1 else m

/-- Embeds the notice `print('Using ReferenceImputation, setting m_samples
= 1')`: emitted exactly when the clamp fires. -/
def clamp_notice (isRef : Bool) (m : ℕ) : Bool := isRef && decide (m ≠ 1)

/-- The evaluation context with its replicate count replaced: the batch as
the estimator actually replicates it after the `m_samples` clamp. -/
def EvalCtx.withM (E : EvalCtx d) (m : ℕ) : EvalCtx d :=
  ⟨E.n, m, E.x, E.y, E.draws, E.predict, E.lossFn⟩

/-- A permutation batch with its replicate count replaced. -/
def PermCtx.withM (P : PermCtx d) (m : ℕ) : PermCtx d :=
  ⟨P.E.withM m, P.perm⟩

/-- Embeds `permutation_sampling` from the clamp down: clamp `m_samples`
under reference imputation, then run the batch loop with the clamped
replicate count.  (The source returns `tracker.scores` of the first
component.) -/
def permutation_sampling (isRef : Bool) (m : ℕ) (detect : Bool)
    (thr total : ℚ) (t : Tracker d) (bs : List (PermCtx d)) :
    Tracker d × ℕ :=
  permRun detect thr total t (bs.map fun P => P.withM (clamp_m isRef m))

/-- Embeds `np.mean(pred, axis=0)` for a batch: the mean prediction of the
model on the batch's examples. -/
def batchMeanPred (predict : α → ℚ) (b : List (α × ℚ)) : ℚ :=
  ((b.map fun e => predict e.1).sum) / (b.length : ℚ)

/-- Embeds `np.mean(loss)` for a batch in pass 1 of `estimate_total`: the
mean per-example loss of the model's actual predictions. -/
def batchMeanLoss (predict : α → ℚ) (lossFn : ℚ → ℚ → ℚ)
    (b : List (α × ℚ)) : ℚ :=
  ((b.map fun e => lossFn (predict e.1) e.2).sum) / (b.length : ℚ)

/-- Embeds `np.mean(loss)` for a batch in pass 2 of `estimate_total`: the
mean loss of predicting the broadcast marginal prediction `mp` for every
example of the batch. -/
def batchMarginalLoss (lossFn : ℚ → ℚ → ℚ) (mp : ℚ) (b : List (α × ℚ)) :
    ℚ :=
  ((b.map fun e => lossFn mp e.2).sum) / (b.length : ℚ)

/-- Embeds one iteration of pass 1 of `estimate_total` on the running
state `(N, mean_loss, marginal_pred)`: both running means are combined by
`(N * old + n * batch_value) / (N + n)` before `N += n`. -/
def pass1Step (predict : α → ℚ) (lossFn : ℚ → ℚ → ℚ) (s : ℕ × ℚ × ℚ)
    (b : List (α × ℚ)) : ℕ × ℚ × ℚ :=
  (s.1 + b.length,
   ((s.1 : ℚ) * s.2.1 + (b.length : ℚ) * batchMeanLoss predict lossFn b) /
     ((s.1 : ℚ) + (b.length : ℚ)),
   ((s.1 : ℚ) * s.2.2 + (b.length : ℚ) * batchMeanPred predict b) /
     ((s.1 : ℚ) + (b.length : ℚ)))

/-- Embeds one iteration of pass 2 of `estimate_total` on the running
state `(N, marginal_loss)`, with the pass-1 marginal prediction `mp`
broadcast to the batch. -/
def pass2Step (lossFn : ℚ → ℚ → ℚ) (mp : ℚ) (s : ℕ × ℚ)
    (b : List (α × ℚ)) : ℕ × ℚ :=
  (s.1 + b.length,
   ((s.1 : ℚ) * s.2 + (b.length : ℚ) * batchMarginalLoss lossFn mp b) /
     ((s.1 : ℚ) + (b.length : ℚ)))

/-- Embeds `estimate_total`: two sequential passes over the same stream of
batches; pass 1 accumulates the running mean loss and running marginal
prediction, pass 2 accumulates the running mean loss of always predicting
the pass-1 marginal prediction; returns `marginal_loss - mean_loss`. -/
def estimate_total (predict : α → ℚ) (lossFn : ℚ → ℚ → ℚ)
    (bs : List (List (α × ℚ))) : ℚ :=
  let p1 := bs.foldl (pass1Step predict lossFn) (0, 0, 0)
  let p2 := bs.foldl (pass2Step lossFn p1.2.2) (0, 0)
  p2.2 - p1.2.1

/-- The size-weighted incremental averaging rule
`new = (N * old + n * batch_value) / (N + n)` on a running state
`(count, mean)`, as one step; written from the spec's words for the
refinement statements about `estimate_total`. -/
def incStep (s : ℕ × ℚ) (p : ℕ × ℚ) : ℕ × ℚ :=
  (s.1 + p.1,
   ((s.1 : ℚ) * s.2 + (p.1 : ℚ) * p.2) / ((s.1 : ℚ) + (p.1 : ℚ)))

/-- The running mean of a stream of `(batch size, batch value)` pairs
under the size-weighted incremental rule, started from `(0, 0)`. -/
def runningMean (l : List (ℕ × ℚ)) : ℚ := (l.foldl incStep (0, 0)).2

/-- The `N + n` denominators produced by folding batches of the given
sizes with the size-weighted incremental rule: `true` iff none of them is
zero.  Both passes of `estimate_total` traverse the same batching, hence
meet exactly these denominators. -/
def denomsOK : ℕ → List ℕ → Bool
  | _, [] => true
  | N, n :: rest => decide (N + n ≠ 0) && denomsOK (N + n) rest

/-- `true` iff no division `/(N + n)` performed by either pass of
`estimate_total` on this stream of batches divides by zero. -/
def estimateTotalDivSafe (bs : List (List (α × ℚ))) : Bool :=
  denomsOK 0 (bs.map List.length)

/-- Modelled from the spec: `utils.sample_subset_feature(input_size, n,
ind)` (its source is not under `src/`) draws, per row, a random coalition
of the features other than `ind`; the mask is 0 at `ind` and follows the
random coalition elsewhere.  The randomness is abstracted as the
`coalition` argument. -/
def sample_subset_feature (ind : Fin d) (coalition : ℕ → Fin d → Bool) :
    ℕ → Fin d → Bool :=
  fun ρ f => if f = ind then false else coalition ρ f

/-- Embeds `S[:, ind] = 1.0`: set column `ind` of the mask to 1, leaving
every other column unchanged. -/
def setCol (S : ℕ → Fin d → Bool) (ind : Fin d) : ℕ → Fin d → Bool :=
  fun ρ f => if f = ind then true else S ρ f

/-- Context of one minibatch of `iterated_sampling` for one feature: the
evaluation context plus the random coalition draw behind
`sample_subset_feature`. -/
structure IterBatch (d : ℕ) where
  E : EvalCtx d
  coalition : ℕ → Fin d → Bool

/-- An iterated-sampling batch with its replicate count replaced. -/
def IterBatch.withM (B : IterBatch d) (m : ℕ) : IterBatch d :=
  ⟨B.E.withM m, B.coalition⟩

/-- Embeds the body of the minibatch loop of `iterated_sampling` for
feature `ind`: sample the coalition mask excluding `ind`, evaluate the
loss with `ind` excluded (impute call `0`), set `S[:, ind] = 1` and
evaluate the loss with `ind` included (impute call `1`), and fold the
per-example differences into the feature's scalar tracker. -/
def iterProcessBatch (ind : Fin d) (t : Tracker 1) (B : IterBatch d) :
    Tracker 1 :=
  Tracker.update t
    ((List.range B.E.n).map fun j => fun _ =>
      batchLoss B.E 0 (sample_subset_feature ind B.coalition) j -
        batchLoss B.E 1 (setCol (sample_subset_feature ind B.coalition) ind) j)

/-- Embeds the minibatch loop of `iterated_sampling` for one feature:
process each minibatch, and when convergence detection is on, break this
feature's loop the first time `(tracker.var ** 0.5) / total` is below the
threshold.  Returns the feature's tracker and how many minibatches were
processed. -/
def iterFeatureRun (detect : Bool) (thr total : ℚ) (ind : Fin d) :
    Tracker 1 → List (IterBatch d) → Tracker 1 × ℕ
  | t, [] => (t, 0)
  | t, B :: rest =>
    let t2 := iterProcessBatch ind t B
    if detect && convRatioLt (t2.var 0) total thr then (t2, 1)
    else
      let r := iterFeatureRun detect thr total ind t2 rest
      (r.1, r.2 + 1)

/-- Embeds `iterated_sampling` from the clamp down: clamp `m_samples`
under reference imputation, then, for each feature index in order, run a
fully independent minibatch loop on that feature's own batch stream with a
fresh tracker, and stack the resulting per-feature scores. -/
def iterated_sampling (isRef : Bool) (m : ℕ) (detect : Bool)
    (thr total : ℚ) (bss : Fin d → List (IterBatch d)) : List ℚ :=
  (List.finRange d).map fun ind =>
    (iterFeatureRun detect thr total ind Tracker.init
      ((bss ind).map fun B => B.withM (clamp_m isRef m))).1.scores 0

/-- A concrete one-feature evaluation context (one example, one replicate,
pass-through model, squared-error loss) used by witnesses. -/
def exE : EvalCtx 1 :=
  ⟨1, 1, fun _ _ => 0, fun _ => 0, fun _ _ _ => 0, fun v => v 0,
   fun p y => (p - y) ^ 2⟩

/-- A concrete one-feature evaluation context with two replicates whose
imputation draws differ between the replicates (rows 0 and 1 draw 0 and 1
respectively), exhibiting the difference between loss-of-averaged-
predictions and averaged per-replicate losses. -/
def exE2 : EvalCtx 1 :=
  ⟨1, 2, fun _ _ => 0, fun _ => 0, fun _ ρ _ => (ρ : ℚ), fun v => v 0,
   fun p y => (p - y) ^ 2⟩

/-- A concrete one-feature permutation batch used by witnesses. -/
def exP : PermCtx 1 := ⟨exE, fun _ => Equiv.refl (Fin 1)⟩

/-- C4: every model evaluation on an `m`-fold replicated batch reshapes
the flat predictions into `(m, n, …)`, averages them over the replicate
axis — replicate `r` of example `j` being flat row `r * n + j`, carrying
example `j`'s features and mask with replicate-specific imputation draws —
and applies the loss once to the averaged prediction against the original
label; it is not the average of per-replicate losses, from which it
differs on a concrete instance. -/
theorem batchLoss_is_loss_of_avgPred (E : EvalCtx d) (c : ℕ)
    (S : ℕ → Fin d → Bool) (j : ℕ) (hj : j < E.n) :
    (batchLoss E c S j =
      E.lossFn ((∑ r ∈ Finset.range E.m, E.predict fun f =>
          if S (r * E.n + j) f then E.x j f
          else E.draws c (r * E.n + j) f) / (E.m : ℚ)) (E.y j))
    ∧ batchLoss exE2 0 (fun _ _ => false) 0 ≠
        perReplicateAvgLoss exE2 0 (fun _ _ => false) 0 := by
  constructor
  · have hx : ∀ r : ℕ, (r * E.n + j) % E.n = j := fun r => by
      rw [Nat.add_comm, Nat.add_mul_mod_self_right, Nat.mod_eq_of_lt hj]
    have him : ∀ r : ℕ, imputedRow E c S (r * E.n + j) = fun f =>
        if S (r * E.n + j) f then E.x j f else E.draws c (r * E.n + j) f := by
      intro r
      funext f
      simp [imputedRow, hx r]
    simp only [batchLoss, avgPred, predRow, him]
  · simp only [batchLoss, perReplicateAvgLoss, avgPred, predRow, imputedRow,
      exE2, Finset.sum_range_succ, Finset.sum_range_zero]
    norm_num

/-- C4 witness: the characterization instantiated at a concrete context,
replicate count and example. -/
theorem batchLoss_is_loss_of_avgPred_w :
    batchLoss exE2 0 (fun _ _ => false) 0 =
      exE2.lossFn ((∑ r ∈ Finset.range exE2.m, exE2.predict fun f =>
          if (fun (_ : ℕ) (_ : Fin 1) => false) (r * exE2.n + 0) f
          then exE2.x 0 f
          else exE2.draws 0 (r * exE2.n + 0) f) / (exE2.m : ℚ))
        (exE2.y 0) :=
  (batchLoss_is_loss_of_avgPred exE2 0 (fun _ _ => false) 0 (by decide)).1

/-- C7: under reference imputation with `m_samples ≠ 1`, both estimators
clamp the replicate count to 1, emit the non-fatal notice, and proceed:
each whole run equals the run with replicate count 1 on every batch, and
every batch actually processed carries replicate count 1. -/
theorem reference_imputation_clamp (isRef : Bool) (m : ℕ) (detect : Bool)
    (thr total : ℚ) (t : Tracker d) (bs : List (PermCtx d))
    (bss : Fin d → List (IterBatch d)) (h1 : isRef = true) (h2 : m ≠ 1) :
    clamp_m isRef m = 1 ∧ clamp_notice isRef m = true
    ∧ permutation_sampling isRef m detect thr total t bs
        = permRun detect thr total t (bs.map fun P => P.withM 1)
    ∧ iterated_sampling isRef m detect thr total bss
        = ((List.finRange d).map fun ind =>
            (iterFeatureRun detect thr total ind Tracker.init
              ((bss ind).map fun B => B.withM 1)).1.scores 0)
    ∧ ∀ P ∈ bs.map fun P => P.withM (clamp_m isRef m), P.E.m = 1 := by
  have hc : clamp_m isRef m = 1 := by simp [clamp_m, h1, h2]
  refine ⟨hc, by simp [clamp_notice, h1, h2], ?_, ?_, ?_⟩
  · simp only [permutation_sampling, hc]
  · simp only [iterated_sampling, hc]
  · intro P hP
    rw [hc] at hP
    obtain ⟨Q, _, rfl⟩ := List.mem_map.mp hP
    rfl

/-- C7 witness: reference imputation with `m_samples = 5` is clamped to
1. -/
theorem reference_imputation_clamp_w : clamp_m true 5 = 1 :=
  (reference_imputation_clamp true 5 false 0 0 Tracker.init
    ([] : List (PermCtx 1)) (fun _ => []) rfl (by decide)).1

/-- C8 counterexample: a stream whose first batch is empty reaches the
division `/(N + n)` with `N = 0` and `n = 0`; no guard excludes the
zero-size batch, refuting the claim for arbitrary batch streams. -/
theorem estimateTotalDivSafe_cex :
    estimateTotalDivSafe ([[]] : List (List (ℚ × ℚ))) = false := by decide

lemma denomsOK_of_pos (l : List ℕ) : ∀ N : ℕ, 0 < N →
    denomsOK N l = true := by
  induction l with
  | nil => intro N _; rfl
  | cons n rest ih =>
    intro N hN
    simp only [denomsOK, Bool.and_eq_true, decide_eq_true_eq]
    exact ⟨by omega, ih (N + n) (by omega)⟩

/-- C8 (amended): `estimate_total` folds every batch, zero-size ones
included, with no guard on `N = 0`; its divisions by `N + n` avoid zero if
and only if the stream is empty or its first batch is nonempty — an empty
first batch makes the very first denominator zero, while an empty batch
arriving after any nonempty one is folded with `N` already positive. -/
theorem estimateTotalDivSafe_iff (bs : List (List (α × ℚ))) :
    estimateTotalDivSafe bs = true ↔ ∀ b ∈ bs.take 1, b ≠ [] := by
  cases bs with
  | nil =>
    constructor
    · intro _ b hb
      exact absurd hb (List.not_mem_nil b)
    · intro _
      rfl
  | cons b rest =>
    constructor
    · intro hsafe c hc
      have hc2 : c = b := by
        simpa [List.take_succ_cons] using hc
      subst hc2
      intro hnil
      subst hnil
      simp only [estimateTotalDivSafe, List.map_cons, List.length_nil,
        denomsOK, Nat.add_zero, decide_eq_true_eq, Bool.and_eq_true] at hsafe
      exact hsafe.1 rfl
    · intro h
      have hb : b ≠ [] := h b (by simp [List.take_succ_cons])
      have hlen : 0 < b.length := List.length_pos.mpr hb
      simp only [estimateTotalDivSafe, List.map_cons, denomsOK,
        Bool.and_eq_true, decide_eq_true_eq]
      exact ⟨by omega, denomsOK_of_pos _ (0 + b.length) (by omega)⟩

/-- C8 witness: a concrete stream whose first batch is nonempty is safe
even though a later batch is empty. -/
theorem estimateTotalDivSafe_iff_w :
    estimateTotalDivSafe ([[(0, 0)], []] : List (List (ℚ × ℚ))) = true :=
  (estimateTotalDivSafe_iff ([[(0, 0)], []] : List (List (ℚ × ℚ)))).mpr
    (by decide)

/-- C9: with a baseline total of exactly zero the convergence ratio is
ill-defined; under the host float convention the comparison is `False`,
so the check is treated as non-converged and both estimators' loops
process their entire finite batch streams and terminate, neither raising
a division error nor looping forever. -/
theorem total_zero_nonconverged :
    (∀ v thr : ℚ, convRatioLt v 0 thr = false)
    ∧ (∀ (detect : Bool) (thr : ℚ) (t : Tracker d) (bs : List (PermCtx d)),
        (permRun detect thr 0 t bs).2 = bs.length ∧
        (permRun detect thr 0 t bs).1 = bs.foldl permProcessBatch t)
    ∧ (∀ (detect : Bool) (thr : ℚ) (ind : Fin d) (t : Tracker 1)
        (bs : List (IterBatch d)),
        (iterFeatureRun detect thr 0 ind t bs).2 = bs.length ∧
        (iterFeatureRun detect thr 0 ind t bs).1 =
          bs.foldl (fun a B => iterProcessBatch ind a B) t) := by
  have hz : ∀ v thr : ℚ, convRatioLt v 0 thr = false := by
    intro v thr
    simp [convRatioLt]
  refine ⟨hz, ?_, ?_⟩
  · intro detect thr t bs
    induction bs generalizing t with
    | nil => exact ⟨rfl, rfl⟩
    | cons P rest ih =>
      simp only [permRun, hz, Bool.and_false, Bool.false_eq_true, if_false,
        List.foldl_cons, List.length_cons]
      exact ⟨by rw [(ih _).1], (ih _).2⟩
  · intro detect thr ind t bs
    induction bs generalizing t with
    | nil => exact ⟨rfl, rfl⟩
    | cons B rest ih =>
      simp only [iterFeatureRun, hz, Bool.and_false, Bool.false_eq_true,
        if_false, List.foldl_cons, List.length_cons]
      exact ⟨by rw [(ih _).1], (ih _).2⟩

lemma runRevealN_succ (P : PermCtx d) (k : ℕ) (h : k < d) :
    runRevealN P (k + 1) = revealStep P (runRevealN P k) ⟨k, h⟩ := by
  simp [runRevealN, h]

lemma runRevealN_succ_of_ge (P : PermCtx d) (k : ℕ) (h : ¬ k < d) :
    runRevealN P (k + 1) = runRevealN P k := by
  simp [runRevealN, h]

lemma revealN_S_succ (P : PermCtx d) (k : ℕ) (h : k < d) (ρ : ℕ)
    (f : Fin d) :
    (runRevealN P (k + 1)).S ρ f =
      if f = P.perm (ρ % P.E.n) ⟨k, h⟩ then true
      else (runRevealN P k).S ρ f := by
  rw [runRevealN_succ P k h]
  rfl

lemma revealN_scores_succ (P : PermCtx d) (k : ℕ) (h : k < d) (j : ℕ)
    (f : Fin d) :
    (runRevealN P (k + 1)).scores j f =
      if f = P.perm (j % P.E.n) ⟨k, h⟩ then
        (runRevealN P k).prev j - (runRevealN P (k + 1)).prev j
      else (runRevealN P k).scores j f := by
  rw [runRevealN_succ P k h]
  rfl

lemma revealN_prev (P : PermCtx d) (k : ℕ) (hk : k ≤ d) :
    (runRevealN P k).prev = batchLoss P.E k (runRevealN P k).S := by
  cases k with
  | zero => rfl
  | succ k =>
    rw [runRevealN_succ P k (Nat.lt_of_succ_le hk)]
    rfl

lemma revealN_S (P : PermCtx d) (k : ℕ) (ρ : ℕ) (f : Fin d) :
    (runRevealN P k).S ρ f = true ↔
      ∃ t : Fin d, (t : ℕ) < k ∧ P.perm (ρ % P.E.n) t = f := by
  induction k with
  | zero =>
    constructor
    · intro h; exact Bool.noConfusion h
    · rintro ⟨t, ht, -⟩; exact absurd ht (Nat.not_lt_zero _)
  | succ k ih =>
    by_cases h : k < d
    · rw [revealN_S_succ P k h ρ f]
      by_cases hf : f = P.perm (ρ % P.E.n) ⟨k, h⟩
      · rw [if_pos hf]
        constructor
        · intro _; exact ⟨⟨k, h⟩, Nat.lt_succ_self k, hf.symm⟩
        · intro _; rfl
      · rw [if_neg hf, ih]
        constructor
        · rintro ⟨t, ht, hp⟩; exact ⟨t, Nat.lt_succ_of_lt ht, hp⟩
        · rintro ⟨t, ht, hp⟩
          refine ⟨t, ?_, hp⟩
          rcases Nat.lt_succ_iff_lt_or_eq.mp ht with h1 | h1
          · exact h1
          · exfalso
            apply hf
            rw [← hp]
            congr 1
            exact Fin.ext h1
    · rw [runRevealN_succ_of_ge P k h, ih]
      constructor
      · rintro ⟨t, ht, hp⟩; exact ⟨t, Nat.lt_succ_of_lt ht, hp⟩
      · rintro ⟨t, ht, hp⟩
        exact ⟨t, lt_of_lt_of_le t.is_lt (Nat.le_of_not_lt h), hp⟩

lemma revealN_scores (P : PermCtx d) (k : ℕ) (j : ℕ) (hj : j < P.E.n)
    (f : Fin d) :
    (runRevealN P k).scores j f =
      if (((P.perm j).symm f) : ℕ) < k then
        (runRevealN P (((P.perm j).symm f) : ℕ)).prev j -
          (runRevealN P ((((P.perm j).symm f) : ℕ) + 1)).prev j
      else 0 := by
  induction k with
  | zero => rw [if_neg (Nat.not_lt_zero _)]; rfl
  | succ k ih =>
    by_cases h : k < d
    · rw [revealN_scores_succ P k h j f, Nat.mod_eq_of_lt hj]
      by_cases hf : f = P.perm j ⟨k, h⟩
      · have hsymm : ((P.perm j).symm f) = ⟨k, h⟩ := by
          rw [hf]
          exact Equiv.symm_apply_apply _ _
        rw [if_pos hf, hsymm, if_pos (Nat.lt_succ_self k)]
      · have hne : (((P.perm j).symm f) : ℕ) ≠ k := by
          intro hEq
          apply hf
          have h2 : (P.perm j).symm f = ⟨k, h⟩ := Fin.ext hEq
          have h3 := Equiv.apply_symm_apply (P.perm j) f
          rw [← h3, h2]
        rw [if_neg hf, ih]
        by_cases hlt : (((P.perm j).symm f) : ℕ) < k
        · rw [if_pos hlt, if_pos (Nat.lt_succ_of_lt hlt)]
        · rw [if_neg hlt, if_neg (by omega)]
    · rw [runRevealN_succ_of_ge P k h, ih]
      have hlt : (((P.perm j).symm f) : ℕ) < k :=
        lt_of_lt_of_le (Fin.is_lt _) (Nat.le_of_not_lt h)
      rw [if_pos hlt, if_pos (Nat.lt_succ_of_lt hlt)]

/-- C1: each pass of the reveal loop sets the mask at every example's
`i`-th permuted feature index (and nothing is ever cleared), recomputes
the loss on the newly imputed input (impute call `i + 1`), assigns
`previous_loss - current_loss` to the score column of the feature just
revealed while leaving the other columns untouched, and replaces
`previous_loss`; the shared tracker is updated exactly once per batch,
after all `d` positions, with the full `n × d` matrix of those per-step
deltas. -/
theorem perm_reveal_loop (P : PermCtx d) (i : ℕ) (hi : i < d) :
    (∀ ρ f, (runRevealN P (i + 1)).S ρ f = true ↔
        (f = P.perm (ρ % P.E.n) ⟨i, hi⟩ ∨ (runRevealN P i).S ρ f = true))
    ∧ (runRevealN P (i + 1)).prev =
        batchLoss P.E (i + 1) (runRevealN P (i + 1)).S
    ∧ (∀ j, j < P.E.n →
        (runRevealN P (i + 1)).scores j (P.perm j ⟨i, hi⟩) =
          (runRevealN P i).prev j - (runRevealN P (i + 1)).prev j)
    ∧ (∀ j f, j < P.E.n → f ≠ P.perm j ⟨i, hi⟩ →
        (runRevealN P (i + 1)).scores j f = (runRevealN P i).scores j f)
    ∧ (∀ t : Tracker d, permProcessBatch t P =
        Tracker.update t ((List.range P.E.n).map fun j => fun f =>
          (runRevealN P (((P.perm j).symm f) : ℕ)).prev j -
            (runRevealN P ((((P.perm j).symm f) : ℕ) + 1)).prev j)) := by
  refine ⟨?_, ?_, ?_, ?_, ?_⟩
  · intro ρ f
    rw [revealN_S_succ P i hi ρ f]
    by_cases hf : f = P.perm (ρ % P.E.n) ⟨i, hi⟩
    · rw [if_pos hf]
      exact ⟨fun _ => Or.inl hf, fun _ => rfl⟩
    · rw [if_neg hf]
      exact ⟨fun h => Or.inr h, fun h => h.elim (fun h1 => absurd h1 hf) id⟩
  · exact revealN_prev P (i + 1) (Nat.succ_le_of_lt hi)
  · intro j hj
    rw [revealN_scores_succ P i hi j _, Nat.mod_eq_of_lt hj, if_pos rfl]
  · intro j f hj hf
    rw [revealN_scores_succ P i hi j f, Nat.mod_eq_of_lt hj, if_neg hf]
  · intro t
    unfold permProcessBatch
    congr 1
    refine List.map_congr_left ?_
    intro j hj
    funext f
    rw [revealN_scores P d j (List.mem_range.mp hj) f,
      if_pos (Fin.is_lt _)]

/-- C1 witness: the score assigned to the feature revealed at position 0
equals the baseline loss minus the recomputed loss, on a concrete
one-feature batch. -/
theorem perm_reveal_loop_w :
    (runRevealN exP 1).scores 0 (exP.perm 0 ⟨0, Nat.zero_lt_one⟩) =
      (runRevealN exP 0).prev 0 - (runRevealN exP 1).prev 0 :=
  (perm_reveal_loop exP 0 Nat.zero_lt_one).2.2.1 0 (by decide)

/-- C10: for every example of a batch, the `d` per-feature scores written
by the reveal loop sum, exactly, to the example's baseline loss with all
features held out minus its loss after all `d` features are revealed —
each row's permutation is a bijection of the feature indices, so every
feature receives exactly one telescoping delta. -/
theorem perm_scores_sum_telescopes (P : PermCtx d) (j : ℕ)
    (hj : j < P.E.n) :
    ∑ f : Fin d, (runRevealN P d).scores j f =
      batchLoss P.E 0 (fun _ _ => false) j -
        batchLoss P.E d (fun _ _ => true) j := by
  have hsc : ∀ f : Fin d, (runRevealN P d).scores j f =
      (runRevealN P (((P.perm j).symm f) : ℕ)).prev j -
        (runRevealN P ((((P.perm j).symm f) : ℕ) + 1)).prev j := by
    intro f
    rw [revealN_scores P d j hj f, if_pos (Fin.is_lt _)]
  calc ∑ f : Fin d, (runRevealN P d).scores j f
      = ∑ f : Fin d,
          ((fun t : Fin d => (runRevealN P (t : ℕ)).prev j -
            (runRevealN P ((t : ℕ) + 1)).prev j) ((P.perm j).symm f)) :=
        Finset.sum_congr rfl fun f _ => hsc f
    _ = ∑ t : Fin d, ((runRevealN P (t : ℕ)).prev j -
          (runRevealN P ((t : ℕ) + 1)).prev j) :=
        Fintype.sum_equiv (P.perm j).symm _ _ (fun _ => rfl)
    _ = ∑ t ∈ Finset.range d, ((runRevealN P t).prev j -
          (runRevealN P (t + 1)).prev j) :=
        Fin.sum_univ_eq_sum_range
          (fun t : ℕ => (runRevealN P t).prev j -
            (runRevealN P (t + 1)).prev j) d
    _ = (runRevealN P 0).prev j - (runRevealN P d).prev j :=
        Finset.sum_range_sub' (fun t => (runRevealN P t).prev j) d
    _ = batchLoss P.E 0 (fun _ _ => false) j -
          batchLoss P.E d (fun _ _ => true) j := by
        congr 1
        rw [revealN_prev P d le_rfl]
        congr 1
        funext ρ f
        exact (revealN_S P d ρ f).mpr
          ⟨(P.perm (ρ % P.E.n)).symm f, Fin.is_lt _,
            Equiv.apply_symm_apply _ _⟩

/-- C10 witness: the telescoping identity on a concrete one-feature
batch. -/
theorem perm_scores_sum_telescopes_w :
    ∑ f : Fin 1, (runRevealN exP 1).scores 0 f =
      batchLoss exP.E 0 (fun _ _ => false) 0 -
        batchLoss exP.E 1 (fun _ _ => true) 0 :=
  perm_scores_sum_telescopes exP 0 (by decide)

/-- A concrete two-feature evaluation context used by witnesses. -/
def exE2d : EvalCtx 2 :=
  ⟨1, 1, fun _ _ => 0, fun _ => 0, fun _ _ _ => 0, fun v => v 0,
   fun p y => (p - y) ^ 2⟩

/-- A concrete two-feature iterated-sampling batch used by witnesses. -/
def exB : IterBatch 2 := ⟨exE2d, fun _ _ => true⟩

/-- C3: in the subset estimator's minibatch body, the first loss is
evaluated with the coalition mask holding 0 in column `ind`; then column
`ind` is set to 1, every other mask column is unchanged, and the batch and
labels fed to both evaluations are the same context `B.E`; the per-example
score folded into the feature's tracker is
`loss_excluded - loss_included`. -/
theorem iter_batch_frame (ind : Fin d) (B : IterBatch d) :
    (∀ ρ, sample_subset_feature ind B.coalition ρ ind = false)
    ∧ (∀ ρ, setCol (sample_subset_feature ind B.coalition) ind ρ ind = true)
    ∧ (∀ ρ f, f ≠ ind →
        setCol (sample_subset_feature ind B.coalition) ind ρ f =
          sample_subset_feature ind B.coalition ρ f)
    ∧ (∀ t : Tracker 1, iterProcessBatch ind t B =
        Tracker.update t ((List.range B.E.n).map fun j => fun _ =>
          B.E.lossFn (avgPred B.E 0 (sample_subset_feature ind B.coalition) j)
              (B.E.y j) -
            B.E.lossFn
              (avgPred B.E 1 (setCol (sample_subset_feature ind B.coalition) ind) j)
              (B.E.y j))) := by
  refine ⟨?_, ?_, ?_, ?_⟩
  · intro ρ
    simp [sample_subset_feature]
  · intro ρ
    simp [setCol]
  · intro ρ f hf
    simp [setCol, hf]
  · intro t
    rfl

/-- C3 witness: toggling column 0 leaves column 1 of the coalition mask
unchanged on a concrete two-feature batch. -/
theorem iter_batch_frame_w :
    setCol (sample_subset_feature (0 : Fin 2) exB.coalition) 0 0 1 =
      sample_subset_feature (0 : Fin 2) exB.coalition 0 1 :=
  (iter_batch_frame 0 exB).2.2.1 0 1 (by decide)

lemma getElem_finRange_map {β : Type} (F : Fin d → β) (k : Fin d) :
    ((List.finRange d).map F)[(k : ℕ)]? = some (F k) := by
  have hk : (k : ℕ) < (List.finRange d).length := by
    simp [k.is_lt]
  rw [List.getElem?_map, List.getElem?_eq_getElem hk]
  simp

/-- C6: `iterated_sampling` returns one row per feature index in order
`0..d-1`, each row produced by a run started from a fresh tracker for
that feature alone, and each row depends only on that feature's own batch
stream — a convergence break inside one feature's minibatch loop cannot
affect any other feature's row, and the outer loop always completes all
`d` features. -/
theorem iter_rows_independent (isRef : Bool) (m : ℕ) (detect : Bool)
    (thr total : ℚ) (bss : Fin d → List (IterBatch d)) :
    (iterated_sampling isRef m detect thr total bss).length = d
    ∧ (∀ k : Fin d,
        (iterated_sampling isRef m detect thr total bss)[(k : ℕ)]? =
          some ((iterFeatureRun detect thr total k Tracker.init
            ((bss k).map fun B => B.withM (clamp_m isRef m))).1.scores 0))
    ∧ (∀ (bss2 : Fin d → List (IterBatch d)) (k : Fin d),
        bss k = bss2 k →
          (iterated_sampling isRef m detect thr total bss)[(k : ℕ)]? =
            (iterated_sampling isRef m detect thr total bss2)[(k : ℕ)]?) := by
  refine ⟨?_, ?_, ?_⟩
  · simp [iterated_sampling]
  · intro k
    exact getElem_finRange_map _ k
  · intro bss2 k hEq
    rw [iterated_sampling, iterated_sampling, getElem_finRange_map _ k,
      getElem_finRange_map _ k, hEq]

/-- C6 witness: with identical streams for feature 0, the two returned
rows at index 0 agree on a concrete two-feature instance. -/
theorem iter_rows_independent_w :
    (iterated_sampling false 1 false 0 0 (fun _ => [exB]))[((0 : Fin 2) : ℕ)]? =
      (iterated_sampling false 1 false 0 0 (fun _ => [exB]))[((0 : Fin 2) : ℕ)]? :=
  (iter_rows_independent false 1 false 0 0 (fun _ => [exB])).2.2
    (fun _ => [exB]) 0 rfl

/-- C5: with convergence detection off, the permutation estimator's outer
loop processes every sampled batch and never exits early; with detection
on, it stops after batch `k` exactly when `k` is the first batch after
which `convRatioLt` holds of the tracker's maximal variance against
`total` and the threshold: the check fails after every earlier batch, and
it holds after the last processed batch whenever the loop stopped before
exhausting the stream. -/
theorem perm_convergence_stop (thr total : ℚ) (bs : List (PermCtx d))
    (t : Tracker d) :
    (permRun false thr total t bs = (bs.foldl permProcessBatch t, bs.length))
    ∧ (permRun true thr total t bs).2 ≤ bs.length
    ∧ (permRun true thr total t bs).1 =
        (bs.take (permRun true thr total t bs).2).foldl permProcessBatch t
    ∧ (∀ j, 1 ≤ j → j < (permRun true thr total t bs).2 →
        convRatioLt (maxVar ((bs.take j).foldl permProcessBatch t)) total thr
          = false)
    ∧ ((permRun true thr total t bs).2 < bs.length →
        convRatioLt (maxVar ((bs.take (permRun true thr total t bs).2).foldl
          permProcessBatch t)) total thr = true) := by
  induction bs generalizing t with
  | nil =>
    refine ⟨rfl, Nat.le_refl 0, rfl, ?_, ?_⟩
    · intro j h1 h2
      exact absurd (lt_of_le_of_lt h1 h2) (by simp [permRun])
    · intro h
      exact absurd h (by simp [permRun])
  | cons P rest ih =>
    have hrun_f : permRun false thr total t (P :: rest) =
        ((permRun false thr total (permProcessBatch t P) rest).1,
         (permRun false thr total (permProcessBatch t P) rest).2 + 1) := by
      simp [permRun]
    cases hc : convRatioLt (maxVar (permProcessBatch t P)) total thr with
    | true =>
      have hrun_t : permRun true thr total t (P :: rest) =
          (permProcessBatch t P, 1) := by
        simp [permRun, hc]
      refine ⟨?_, ?_, ?_, ?_, ?_⟩
      · rw [hrun_f, ((ih (permProcessBatch t P)).1 : _)]
        simp
      · rw [hrun_t]
        simp
      · rw [hrun_t]
        simp
      · intro j h1 h2
        rw [hrun_t] at h2
        omega
      · intro _
        rw [hrun_t]
        simpa using hc
    | false =>
      have hrun_t : permRun true thr total t (P :: rest) =
          ((permRun true thr total (permProcessBatch t P) rest).1,
           (permRun true thr total (permProcessBatch t P) rest).2 + 1) := by
        simp [permRun, hc]
      have IH := ih (permProcessBatch t P)
      refine ⟨?_, ?_, ?_, ?_, ?_⟩
      · rw [hrun_f, (IH.1 : _)]
        simp
      · rw [hrun_t]
        simpa using Nat.succ_le_succ IH.2.1
      · rw [hrun_t]
        simpa using IH.2.2.1
      · intro j h1 h2
        rw [hrun_t] at h2
        match j, h1 with
        | 1, _ =>
          simpa using hc
        | jj + 2, _ =>
          have := IH.2.2.2.1 (jj + 1) (by omega) (by omega)
          simpa using this
      · intro hlt
        rw [hrun_t] at hlt ⊢
        have := IH.2.2.2.2 (by simpa using hlt)
        simpa using this

/-- C5 witness: on a concrete stream of two one-feature batches whose
first batch already satisfies the convergence check, detection stops the
loop with the check holding after the last processed batch. -/
theorem perm_convergence_stop_w :
    convRatioLt (maxVar (([exP, exP].take
        (permRun true 1 1 (Tracker.init : Tracker 1) [exP, exP]).2).foldl
      permProcessBatch Tracker.init)) 1 1 = true :=
  (perm_convergence_stop 1 1 [exP, exP] Tracker.init).2.2.2.2 (by
    have hfin : List.finRange 1 = [0] := by decide
    have hmax : ∀ t : Tracker 1, maxVar t = t.var 0 := by
      intro t
      unfold maxVar
      rw [hfin]
      rfl
    have hvar : ∀ r : Fin 1 → ℚ,
        (Tracker.obs (Tracker.init : Tracker 1) r).var 0 = 0 := by
      intro r
      simp [Tracker.obs, Tracker.init, Tracker.var]
    have hpp : permProcessBatch (Tracker.init : Tracker 1) exP =
        Tracker.obs Tracker.init
          (fun f => (runRevealN exP 1).scores 0 f) := by
      simp [permProcessBatch, Tracker.update, exP, exE, List.range_succ]
    have h1 : convRatioLt
        (maxVar (permProcessBatch (Tracker.init : Tracker 1) exP)) 1 1
          = true := by
      rw [hpp, hmax, hvar]
      norm_num [convRatioLt]
    have hk : permRun true 1 1 (Tracker.init : Tracker 1) [exP, exP] =
        (permProcessBatch Tracker.init exP, 1) := by
      simp [permRun, h1]
    rw [hk]
    simp)

lemma pass1_loss_pair (pr : α → ℚ) (lf : ℚ → ℚ → ℚ)
    (bs : List (List (α × ℚ))) :
    ∀ s : ℕ × ℚ × ℚ,
      ((bs.foldl (pass1Step pr lf) s).1, (bs.foldl (pass1Step pr lf) s).2.1) =
        (bs.map fun b => (b.length, batchMeanLoss pr lf b)).foldl incStep
          (s.1, s.2.1) := by
  induction bs with
  | nil => intro s; rfl
  | cons b rest ih =>
    intro s
    simp only [List.foldl_cons, List.map_cons]
    exact ih (pass1Step pr lf s b)

lemma pass1_pred_pair (pr : α → ℚ) (lf : ℚ → ℚ → ℚ)
    (bs : List (List (α × ℚ))) :
    ∀ s : ℕ × ℚ × ℚ,
      ((bs.foldl (pass1Step pr lf) s).1, (bs.foldl (pass1Step pr lf) s).2.2) =
        (bs.map fun b => (b.length, batchMeanPred pr b)).foldl incStep
          (s.1, s.2.2) := by
  induction bs with
  | nil => intro s; rfl
  | cons b rest ih =>
    intro s
    simp only [List.foldl_cons, List.map_cons]
    exact ih (pass1Step pr lf s b)

lemma pass2_fold (lf : ℚ → ℚ → ℚ) (mp : ℚ) (bs : List (List (α × ℚ))) :
    ∀ s : ℕ × ℚ,
      bs.foldl (pass2Step lf mp) s =
        (bs.map fun b => (b.length, batchMarginalLoss lf mp b)).foldl
          incStep s := by
  induction bs with
  | nil => intro s; rfl
  | cons b rest ih =>
    intro s
    simp only [List.foldl_cons, List.map_cons]
    exact ih (pass2Step lf mp s b)

lemma incFold_closed (l : List (ℕ × ℚ)) :
    ∀ (N : ℕ) (acc : ℚ), (∀ p ∈ l, p.1 ≠ 0) → 0 < N →
    (l.foldl incStep (N, acc)).2 =
      ((N : ℚ) * acc + (l.map fun p => (p.1 : ℚ) * p.2).sum) /
        ((N : ℚ) + (l.map fun p => (p.1 : ℚ)).sum) := by
  induction l with
  | nil =>
    intro N acc _ hN
    have hNq : (0 : ℚ) < (N : ℚ) := by exact_mod_cast hN
    have hN0 : ((N : ℚ)) ≠ 0 := ne_of_gt hNq
    simp only [List.foldl_nil, List.map_nil, List.sum_nil, add_zero]
    field_simp
  | cons p rest ih =>
    intro N acc hl hN
    obtain ⟨n, v⟩ := p
    have hn : n ≠ 0 := by
      simpa using hl (n, v) (List.mem_cons_self _ _)
    have hrest : ∀ q ∈ rest, q.1 ≠ 0 := fun q hq =>
      hl q (List.mem_cons_of_mem _ hq)
    simp only [List.foldl_cons, List.map_cons, List.sum_cons, incStep]
    rw [ih (N + n) _ hrest (by omega)]
    have hNq : (0 : ℚ) < (N : ℚ) := by exact_mod_cast hN
    have hnq : (0 : ℚ) < (n : ℚ) := by
      exact_mod_cast Nat.pos_of_ne_zero hn
    have hS : 0 ≤ (rest.map fun p => ((p.1 : ℕ) : ℚ)).sum :=
      List.sum_nonneg (by
        intro x hx
        obtain ⟨q, _, rfl⟩ := List.mem_map.mp hx
        positivity)
    have hNn : ((N : ℚ) + (n : ℚ)) ≠ 0 := by linarith
    have hden : ((N : ℚ) + ((n : ℚ) +
        (rest.map fun p => ((p.1 : ℕ) : ℚ)).sum)) ≠ 0 := by linarith
    push_cast
    field_simp
    ring

lemma runningMean_closed (l : List (ℕ × ℚ)) (h : ∀ p ∈ l, p.1 ≠ 0) :
    runningMean l = (l.map fun p => (p.1 : ℚ) * p.2).sum /
      (l.map fun p => (p.1 : ℚ)).sum := by
  cases l with
  | nil => simp [runningMean]
  | cons p rest =>
    obtain ⟨n, v⟩ := p
    have hn : n ≠ 0 := by
      simpa using h (n, v) (List.mem_cons_self _ _)
    have hnq : ((n : ℚ)) ≠ 0 := Nat.cast_ne_zero.mpr hn
    have hstart : incStep (0, 0) (n, v) = (n, v) := by
      simp [incStep, hnq]
    rw [runningMean, List.foldl_cons, hstart,
      incFold_closed rest n v (fun q hq => h q (List.mem_cons_of_mem _ hq))
        (Nat.pos_of_ne_zero hn)]
    simp only [List.map_cons, List.sum_cons]

lemma runningMean_batchAvg (g : α × ℚ → ℚ) (bs : List (List (α × ℚ)))
    (h : ∀ b ∈ bs, b ≠ []) :
    runningMean (bs.map fun b =>
        (b.length, ((b.map g).sum) / (b.length : ℚ))) =
      ((bs.flatten.map g).sum) / (bs.flatten.length : ℚ) := by
  have hne : ∀ p ∈ (bs.map fun b =>
      (b.length, ((b.map g).sum) / (b.length : ℚ))), p.1 ≠ 0 := by
    intro p hp
    obtain ⟨b, hb, rfl⟩ := List.mem_map.mp hp
    simpa [List.length_eq_zero] using h b hb
  rw [runningMean_closed _ hne, List.map_map, List.map_map]
  congr 1
  · have hterm : ∀ b ∈ bs,
        ((fun p : ℕ × ℚ => (p.1 : ℚ) * p.2) ∘ fun b =>
          (b.length, ((b.map g).sum) / (b.length : ℚ))) b = (b.map g).sum := by
      intro b hb
      have hb0 : ((b.length : ℕ) : ℚ) ≠ 0 := by
        simpa [Nat.cast_ne_zero, List.length_eq_zero] using h b hb
      simp only [Function.comp]
      field_simp
    rw [List.map_congr_left hterm]
    have : bs.flatten.map g = (bs.map (List.map g)).flatten := by
      rw [List.map_flatten]
    rw [this, List.sum_flatten, List.map_map]
    rfl
  · have : ((fun p : ℕ × ℚ => ((p.1 : ℕ) : ℚ)) ∘ fun b =>
        (b.length, ((b.map g).sum) / (b.length : ℚ))) =
          fun b : List (α × ℚ) => ((b.length : ℕ) : ℚ) := rfl
    rw [this, List.length_flatten, Nat.cast_list_sum, List.map_map]
    rfl

/-- C2: `estimate_total` makes two passes over the same batching and
returns `marginal_loss - mean_loss`, each a size-weighted incremental
running mean (`new = (N·old + n·batch_value)/(N+n)`): `mean_loss` of the
per-example losses of the model's actual predictions, `marginal_loss` of
the losses of predicting the running dataset-wide mean prediction for
every example; with nonempty batches these equal the corresponding
whole-dataset means. -/
theorem estimate_total_runningMeans (pr : α → ℚ) (lf : ℚ → ℚ → ℚ)
    (bs : List (List (α × ℚ))) :
    (estimate_total pr lf bs =
      runningMean (bs.map fun b => (b.length,
        batchMarginalLoss lf
          (runningMean (bs.map fun b2 => (b2.length, batchMeanPred pr b2))) b))
      - runningMean (bs.map fun b => (b.length, batchMeanLoss pr lf b)))
    ∧ ((∀ b ∈ bs, b ≠ []) →
      estimate_total pr lf bs =
        ((bs.flatten.map fun e =>
            lf ((bs.flatten.map fun e2 => pr e2.1).sum /
              (bs.flatten.length : ℚ)) e.2).sum) / (bs.flatten.length : ℚ)
        - ((bs.flatten.map fun e => lf (pr e.1) e.2).sum) /
            (bs.flatten.length : ℚ)) := by
  have h1 := pass1_loss_pair pr lf bs (0, 0, 0)
  have h2 := pass1_pred_pair pr lf bs (0, 0, 0)
  have hml : (bs.foldl (pass1Step pr lf) (0, 0, 0)).2.1 =
      runningMean (bs.map fun b => (b.length, batchMeanLoss pr lf b)) :=
    congrArg Prod.snd h1
  have hmp : (bs.foldl (pass1Step pr lf) (0, 0, 0)).2.2 =
      runningMean (bs.map fun b => (b.length, batchMeanPred pr b)) :=
    congrArg Prod.snd h2
  have hmain : estimate_total pr lf bs =
      runningMean (bs.map fun b => (b.length,
        batchMarginalLoss lf
          (runningMean (bs.map fun b2 => (b2.length, batchMeanPred pr b2))) b))
      - runningMean (bs.map fun b => (b.length, batchMeanLoss pr lf b)) := by
    show (bs.foldl
        (pass2Step lf (bs.foldl (pass1Step pr lf) (0, 0, 0)).2.2) (0, 0)).2
      - (bs.foldl (pass1Step pr lf) (0, 0, 0)).2.1 = _
    rw [pass2_fold lf _ bs (0, 0), hml, hmp]
    rfl
  refine ⟨hmain, ?_⟩
  intro h
  rw [hmain]
  have e2 : (bs.map fun b => (b.length, batchMeanPred pr b)) =
      (bs.map fun b => (b.length,
        ((b.map fun e => pr e.1).sum) / (b.length : ℚ))) := rfl
  have hP := runningMean_batchAvg (fun e => pr e.1) bs h
  have e1 : (bs.map fun b => (b.length, batchMeanLoss pr lf b)) =
      (bs.map fun b => (b.length,
        ((b.map fun e => lf (pr e.1) e.2).sum) / (b.length : ℚ))) := rfl
  have hA := runningMean_batchAvg (fun e => lf (pr e.1) e.2) bs h
  rw [e2, hP, e1, hA]
  have e3 : (bs.map fun b => (b.length,
      batchMarginalLoss lf
        ((bs.flatten.map fun e2 => pr e2.1).sum / (bs.flatten.length : ℚ)) b))
      = (bs.map fun b => (b.length,
        ((b.map fun e =>
          lf ((bs.flatten.map fun e2 => pr e2.1).sum /
            (bs.flatten.length : ℚ)) e.2).sum) / (b.length : ℚ))) := rfl
  have hM := runningMean_batchAvg
    (fun e => lf ((bs.flatten.map fun e2 => pr e2.1).sum /
      (bs.flatten.length : ℚ)) e.2) bs h
  rw [e3, hM]

/-- C2 witness: the closed-form decomposition on a concrete stream of one
nonempty batch. -/
theorem estimate_total_runningMeans_w :
    estimate_total (fun a : ℚ => a) (fun p y : ℚ => p - y)
        [[((1 : ℚ), (2 : ℚ))]] =
      (([[((1 : ℚ), (2 : ℚ))]].flatten.map fun e =>
          ([[((1 : ℚ), (2 : ℚ))]].flatten.map fun e2 => e2.1).sum /
            ([[((1 : ℚ), (2 : ℚ))]].flatten.length : ℚ) - e.2).sum) /
        ([[((1 : ℚ), (2 : ℚ))]].flatten.length : ℚ)
      - (([[((1 : ℚ), (2 : ℚ))]].flatten.map fun e => e.1 - e.2).sum) /
          ([[((1 : ℚ), (2 : ℚ))]].flatten.length : ℚ) :=
  (estimate_total_runningMeans (fun a : ℚ => a) (fun p y : ℚ => p - y)
    [[((1 : ℚ), (2 : ℚ))]]).2 (by
      intro b hb
      rcases List.mem_cons.mp hb with rfl | hb2
      · exact List.cons_ne_nil _ _
      · exact absurd hb2 (List.not_mem_nil _))
